import Mathlib

/-! mediatype: lazy decomposition of a media-type string.

A shallow embedding of `mediatype.go`.  A Go `string` is modelled as a list of
characters; the three separators of the package are single ASCII characters,
so splitting on characters and splitting on bytes cut at the same places.
The methods have a pointer receiver and mutate the struct on first use, so
every deriving accessor is a function from a state to a result and a new
state.  A Go run-time panic (index or slice bound out of range) is the result
`none`.
-/

namespace mediatype

/-- A Go `string`. -/
abbrev GoString := List Char

/-- A Go `map[string]string`, as its list of entries. -/
abbrev ParamMap := List (GoString × GoString)

/-- The character used to split the main and sub-types from a full type string. -/
def MainSubSplitCharacter : Char := '/'

/-- The character used to denote a suffix declaration. -/
def SuffixCharacter : Char := '+'

/-- The character used to separate trees. -/
def TreeSeparatorCharacter : Char := '.'

/-- Go's `strings.Split(s, sep)` for a one-character separator: the pieces of
`s` between consecutive occurrences of `sep`, in order. A string without the
separator (the empty string too) gives the one-element slice holding it.
The result is never empty (`Split_ne_nil`), so the first arm of the inner
`match` is never taken. -/
def Split : GoString → Char → List GoString
  | [], _ => [[]]
  | c :: s, sep =>
    if c = sep then [] :: Split s sep
    else
      match Split s sep with
      | [] => [[c]]
      | piece :: pieces => (c :: piece) :: pieces

/-- Go's index expression `a[i]` on a slice: a panic (`none`) unless
`0 ≤ i < len(a)`. -/
def index {α : Type} (a : List α) (i : Int) : Option α :=
  if 0 ≤ i ∧ i < (a.length : Int) then a.get? i.toNat else none

/-- Go's slice expression `a[lo:hi]`: a panic (`none`) unless
`0 ≤ lo ≤ hi ≤ len(a)`. -/
def slice {α : Type} (a : List α) (lo hi : Int) : Option (List α) :=
  if 0 ≤ lo ∧ lo ≤ hi ∧ hi ≤ (a.length : Int) then
    some ((a.drop lo.toNat).take (hi.toNat - lo.toNat))
  else none

/-- Go's `len` of a slice, an `int`. -/
def len {α : Type} (a : List α) : Int := (a.length : Int)

/-- The struct `mediaType`. -/
structure mediaType where
  fullType : GoString
  params : ParamMap
  beenSplit : Bool
  mainType : GoString
  trees : List GoString
  subType : GoString
  suffix : GoString
deriving DecidableEq

/-- The composite literal `&mediaType{fullType: normalized, params: params}` of
`Parse`: every other field has its zero value. -/
def mediaType.new (normalized : GoString) (params : ParamMap) : mediaType :=
  { fullType := normalized, params := params, beenSplit := false,
    mainType := [], trees := [], subType := [], suffix := [] }

/-- The two arms of `if 1 < len(subSuffixSplit) { m.suffix = subSuffixSplit[1] }`. -/
def splitSuffix (m : mediaType) (subSuffixSplit : List GoString) : Option mediaType :=
  if 1 < len subSuffixSplit then
    (index subSuffixSplit 1).bind fun s => some { m with suffix := s }
  else some m

/-- The two arms of `if 1 < treeSubSplitLength { m.trees = treeSubSplit[0 : treeSubSplitLength-1] }`. -/
def splitTrees (m : mediaType) (treeSubSplit : List GoString) (treeSubSplitLength : Int) :
    Option mediaType :=
  if 1 < treeSubSplitLength then
    (slice treeSubSplit 0 (treeSubSplitLength - 1)).bind fun t => some { m with trees := t }
  else some m

/-- The body of `if 1 < len(mainSubSplit) { ... }` in `splitTypes`. -/
def splitSub (m : mediaType) (mainSubSplit : List GoString) : Option mediaType :=
  if 1 < len mainSubSplit then
    (index mainSubSplit 1).bind fun sub =>
    let subSuffixSplit := Split sub SuffixCharacter
    (splitSuffix m subSuffixSplit).bind fun m =>
    (index subSuffixSplit 0).bind fun pre =>
    let treeSubSplit := Split pre TreeSeparatorCharacter
    let treeSubSplitLength := len treeSubSplit
    (index treeSubSplit (treeSubSplitLength - 1)).bind fun last =>
    splitTrees { m with subType := last } treeSubSplit treeSubSplitLength
  else some m

/-- Split the full type string into parts and assign those values to the struct. -/
def splitTypes (m : mediaType) : Option mediaType :=
  let mainSubSplit := Split m.fullType MainSubSplitCharacter
  (index mainSubSplit 0).bind fun main =>
  (splitSub { m with mainType := main } mainSubSplit).bind fun m =>
  some { m with beenSplit := true }

/-- The guard `if !m.beenSplit { m.splitTypes() }` every lazy accessor opens with. -/
def ensureSplit (m : mediaType) : Option mediaType :=
  if !m.beenSplit then splitTypes m else some m

/-- Get the normalized type and sub-type as a string. -/
def FullType (m : mediaType) : GoString := m.fullType

/-- Get the defined parameters of the media type. -/
def Parameters (m : mediaType) : ParamMap := m.params

/-- Get the "main" (top-level) type as a string, lazily. -/
def MainType (m : mediaType) : Option (GoString × mediaType) :=
  (ensureSplit m).bind fun m => some (m.mainType, m)

/-- Get the "sub" type as a string, lazily. -/
def SubType (m : mediaType) : Option (GoString × mediaType) :=
  (ensureSplit m).bind fun m => some (m.subType, m)

/-- Get the split "sub" type as the strings split by the namespace separator, lazily. -/
def Trees (m : mediaType) : Option (List GoString × mediaType) :=
  (ensureSplit m).bind fun m => some (m.trees, m)

/-- Get the prefix of the type's trees, lazily. -/
def Prefix (m : mediaType) : Option (GoString × mediaType) :=
  (ensureSplit m).bind fun m =>
  if 0 < len m.trees then (index m.trees 0).bind fun t => some (t, m)
  else some ([], m)

/-- Get the "suffix" of the type as a string, lazily. -/
def Suffix (m : mediaType) : Option (GoString × mediaType) :=
  (ensureSplit m).bind fun m => some (m.suffix, m)

/-- Parse a raw media type string. The normalizer `mime.ParseMediaType` is a
parameter: any function from the raw string to Go's result triple
`(mediatype, params, err)`, where `err = none` is Go's `nil` error. The result
is Go's pair `(MediaType, error)`, `none` standing for `nil` in both places. -/
def Parse {E : Type} (ParseMediaType : GoString → GoString × ParamMap × Option E)
    (raw : GoString) : Option mediaType × Option E :=
  match ParseMediaType raw with
  | (normalized, params, err) =>
    if err.isSome then (none, err)
    else (some (mediaType.new normalized params), none)

/-- The text of `s` before its first `c` (all of `s` when it has none). -/
def textBefore (c : Char) (s : GoString) : GoString := s.takeWhile (fun x => x != c)

/-- The text of `s` after its first `c` (empty when it has none). -/
def textAfter (c : Char) (s : GoString) : GoString := (s.dropWhile (fun x => x != c)).drop 1

/-- What `splitTypes` leaves in the struct, in closed form: the sub-type part
is the text between the first and the second `/`, its pre-suffix part the text
before its first `+`. Proved equal to the result of `splitTypes` in
`splitTypes_eq`. -/
def derived (m : mediaType) : mediaType :=
  if MainSubSplitCharacter ∈ m.fullType then
    let sub := textBefore MainSubSplitCharacter (textAfter MainSubSplitCharacter m.fullType)
    let t := Split (textBefore SuffixCharacter sub) TreeSeparatorCharacter
    { m with
      mainType := textBefore MainSubSplitCharacter m.fullType
      suffix :=
        if SuffixCharacter ∈ sub then textBefore SuffixCharacter (textAfter SuffixCharacter sub)
        else m.suffix
      subType := t.getLastD []
      trees := if 1 < t.length then t.dropLast else m.trees
      beenSplit := true }
  else { m with mainType := m.fullType, beenSplit := true }

/-- The string the round-trip property rebuilds, the four accessors called one
after the other on the same value: the main type, `/`, every tree followed by
`.`, the sub-type, and `+` with the suffix when the suffix is not empty. -/
def reconstruct (m : mediaType) : Option GoString :=
  (MainType m).bind fun r1 =>
  (Trees r1.2).bind fun r2 =>
  (SubType r2.2).bind fun r3 =>
  (Suffix r3.2).bind fun r4 =>
  some (r1.1 ++ [MainSubSplitCharacter]
    ++ r2.1.flatMap (fun t => t ++ [TreeSeparatorCharacter])
    ++ r3.1
    ++ (if r4.1 ≠ [] then SuffixCharacter :: r4.1 else []))

/-- The seven methods of the interface `MediaType`. -/
inductive Accessor where
  | FullType
  | Parameters
  | MainType
  | SubType
  | Trees
  | Prefix
  | Suffix
deriving DecidableEq

/-- What a method returns: a string, a slice of strings or the parameter map. -/
inductive Value where
  | str (s : GoString)
  | strs (l : List GoString)
  | map (p : ParamMap)
deriving DecidableEq

/-- The methods that open with the guard `if !m.beenSplit { m.splitTypes() }`. -/
def Accessor.derives : Accessor → Bool
  | .FullType => false
  | .Parameters => false
  | _ => true

/-- One method call on the value: what it returns and the state it leaves. -/
def call : Accessor → mediaType → Option (Value × mediaType)
  | .FullType, m => some (.str (FullType m), m)
  | .Parameters, m => some (.map (Parameters m), m)
  | .MainType, m => (MainType m).map fun r => (.str r.1, r.2)
  | .SubType, m => (SubType m).map fun r => (.str r.1, r.2)
  | .Trees, m => (Trees m).map fun r => (.strs r.1, r.2)
  | .Prefix, m => (Prefix m).map fun r => (.str r.1, r.2)
  | .Suffix, m => (Suffix m).map fun r => (.str r.1, r.2)

/-- A sequence of method calls, one after the other on the same value: the
results in call order and the state after the last call. -/
def run : List Accessor → mediaType → Option (List Value × mediaType)
  | [], m => some ([], m)
  | a :: rest, m =>
    (call a m).bind fun r =>
    (run rest r.2).map fun rs => (r.1 :: rs.1, rs.2)

/-! ## The split function -/

theorem textBefore_nil (c : Char) : textBefore c [] = [] := rfl

theorem textAfter_nil (c : Char) : textAfter c [] = [] := rfl

theorem textBefore_cons_self (c : Char) (s : GoString) : textBefore c (c :: s) = [] := by
  simp [textBefore, List.takeWhile]

theorem textAfter_cons_self (c : Char) (s : GoString) : textAfter c (c :: s) = s := by
  simp [textAfter, List.dropWhile]

theorem textBefore_cons_ne {c x : Char} (h : x ≠ c) (s : GoString) :
    textBefore c (x :: s) = x :: textBefore c s := by
  have hb : (x != c) = true := by simpa using h
  simp [textBefore, List.takeWhile, hb]

theorem textAfter_cons_ne {c x : Char} (h : x ≠ c) (s : GoString) :
    textAfter c (x :: s) = textAfter c s := by
  have hb : (x != c) = true := by simpa using h
  simp [textAfter, List.dropWhile, hb]

theorem Split_unfold (s : GoString) (c : Char) :
    Split s c = textBefore c s :: (if c ∈ s then Split (textAfter c s) c else []) := by
  induction s with
  | nil => simp [Split, textBefore_nil]
  | cons x s ih =>
    by_cases h : x = c
    · subst h
      simp [Split, textBefore_cons_self, textAfter_cons_self]
    · have hc : (c ∈ x :: s) ↔ c ∈ s := by
        simp only [List.mem_cons]
        constructor
        · rintro (h1 | h1)
          · exact absurd h1.symm h
          · exact h1
        · exact Or.inr
      rw [Split, if_neg h, ih, textBefore_cons_ne h, textAfter_cons_ne h]
      simp only [hc]

theorem Split_ne_nil (s : GoString) (c : Char) : Split s c ≠ [] := by
  rw [Split_unfold]; exact List.cons_ne_nil _ _

theorem Split_of_not_mem {s : GoString} {c : Char} (h : c ∉ s) : Split s c = [s] := by
  induction s with
  | nil => rfl
  | cons x s ih =>
    have hx : x ≠ c := fun e => h (by simp [e])
    have hs : c ∉ s := fun e => h (List.mem_cons_of_mem _ e)
    rw [Split, if_neg hx, ih hs]

theorem textBefore_of_not_mem {s : GoString} {c : Char} (h : c ∉ s) : textBefore c s = s := by
  have := Split_unfold s c
  rw [Split_of_not_mem h, if_neg h] at this
  exact (List.cons.inj this).1.symm

theorem not_mem_textBefore (c : Char) (s : GoString) : c ∉ textBefore c s := by
  intro h
  have := List.mem_takeWhile_imp h
  simp at this

theorem textBefore_append_textAfter {s : GoString} {c : Char} (h : c ∈ s) :
    textBefore c s ++ c :: textAfter c s = s := by
  induction s with
  | nil => simp at h
  | cons x s ih =>
    by_cases hx : x = c
    · subst hx
      simp [textBefore_cons_self, textAfter_cons_self]
    · have hs : c ∈ s := by
        rcases List.mem_cons.1 h with h1 | h1
        · exact absurd h1.symm hx
        · exact h1
      rw [textBefore_cons_ne hx, textAfter_cons_ne hx, List.cons_append, ih hs]

/-- The model of `strings.Split` computes the segments that `List.splitOn` defines. -/
theorem Split_eq_splitOn (s : GoString) (c : Char) : Split s c = s.splitOn c := by
  induction s with
  | nil => rfl
  | cons x s ih =>
    rw [List.splitOn, List.splitOnP_cons, Split, ih]
    by_cases h : x = c
    · simp [h, List.splitOn]
    · simp only [h, if_false, beq_iff_eq, List.splitOn]
      cases hs : List.splitOnP (fun x => x == c) s with
      | nil => exact absurd hs (List.splitOnP_ne_nil _ _)
      | cons a l => rfl

/-! ## Index and slice expressions that stay within bounds -/

theorem index_zero_cons {α : Type} (a : α) (l : List α) : index (a :: l) 0 = some a := by
  simp [index]

theorem index_one_cons {α : Type} (a b : α) (l : List α) : index (a :: b :: l) 1 = some b := by
  simp [index]

theorem index_last {α : Type} (l : List α) (h : l ≠ []) :
    index l (len l - 1) = some (l.getLast h) := by
  have hpos : 0 < l.length := List.length_pos.2 h
  have hn : ((l.length : Int) - 1).toNat = l.length - 1 := by omega
  have hc : 0 ≤ (l.length : Int) - 1 ∧ (l.length : Int) - 1 < (l.length : Int) := by omega
  rw [index, len, if_pos hc, hn, List.getLast_eq_getElem, List.get?_eq_getElem?]
  exact List.getElem?_eq_getElem _

theorem slice_dropLast {α : Type} (l : List α) (h : l ≠ []) :
    slice l 0 (len l - 1) = some l.dropLast := by
  have hpos : 0 < l.length := List.length_pos.2 h
  have hn : ((l.length : Int) - 1).toNat = l.length - 1 := by omega
  have hc : (0 : Int) ≤ 0 ∧ (0 : Int) ≤ (l.length : Int) - 1 ∧
      (l.length : Int) - 1 ≤ (l.length : Int) := by omega
  rw [slice, len, if_pos hc, hn]
  simp [List.dropLast_eq_take]

theorem len_Split_gt_one (s : GoString) (c : Char) : 1 < len (Split s c) ↔ c ∈ s := by
  rw [Split_unfold]
  by_cases h : c ∈ s
  · have := List.length_pos.2 (Split_ne_nil (textAfter c s) c)
    simp only [h, if_true, len, List.length_cons, iff_true]
    omega
  · simp [h, len]

/-! ## The derivation in closed form -/

theorem index_Split_zero (s : GoString) (c : Char) :
    index (Split s c) 0 = some (textBefore c s) := by
  rw [Split_unfold, index_zero_cons]

theorem index_Split_one {s : GoString} {c : Char} (h : c ∈ s) :
    index (Split s c) 1 = some (textBefore c (textAfter c s)) := by
  rw [Split_unfold, if_pos h, Split_unfold (textAfter c s), index_one_cons]

theorem splitSuffix_eq (m : mediaType) (sub : GoString) :
    splitSuffix m (Split sub SuffixCharacter) =
      some { m with suffix :=
        if SuffixCharacter ∈ sub then textBefore SuffixCharacter (textAfter SuffixCharacter sub)
        else m.suffix } := by
  unfold splitSuffix
  by_cases h : SuffixCharacter ∈ sub
  · rw [if_pos ((len_Split_gt_one _ _).2 h), index_Split_one h]
    simp [h]
  · rw [if_neg (fun h1 => h ((len_Split_gt_one _ _).1 h1))]
    simp [h]

theorem splitTrees_eq (m : mediaType) (t : List GoString) (h : t ≠ []) :
    splitTrees m t (len t) =
      some { m with trees := if 1 < t.length then t.dropLast else m.trees } := by
  unfold splitTrees
  by_cases h1 : 1 < t.length
  · have h2 : (1 : Int) < len t := by simp only [len]; omega
    rw [if_pos h2, slice_dropLast t h]
    simp [h1]
  · have h2 : ¬ (1 : Int) < len t := by simp only [len]; omega
    rw [if_neg h2]
    simp [h1]

theorem splitTypes_eq (m : mediaType) : splitTypes m = some (derived m) := by
  unfold splitTypes derived
  simp only [index_Split_zero, Option.some_bind]
  unfold splitSub
  by_cases h : MainSubSplitCharacter ∈ m.fullType
  · rw [if_pos ((len_Split_gt_one _ _).2 h), index_Split_one h, if_pos h]
    simp only [Option.some_bind, splitSuffix_eq, index_Split_zero]
    rw [index_last _ (Split_ne_nil _ _), Option.some_bind, splitTrees_eq _ _ (Split_ne_nil _ _)]
    simp only [Option.some_bind]
    rw [List.getLastD_eq_getLast?, List.getLast?_eq_getLast _ (Split_ne_nil _ _)]
    simp
  · rw [if_neg (fun h1 => h ((len_Split_gt_one _ _).1 h1)), if_neg h]
    simp [textBefore_of_not_mem h]

/-! ## The accessors on a fresh and on a derived value -/

theorem derived_beenSplit (m : mediaType) : (derived m).beenSplit = true := by
  unfold derived; split <;> rfl

theorem derived_fullType (m : mediaType) : (derived m).fullType = m.fullType := by
  unfold derived; split <;> rfl

theorem derived_params (m : mediaType) : (derived m).params = m.params := by
  unfold derived; split <;> rfl

theorem ensureSplit_fresh {m : mediaType} (h : m.beenSplit = false) :
    ensureSplit m = some (derived m) := by
  simp [ensureSplit, h, splitTypes_eq]

theorem ensureSplit_done {m : mediaType} (h : m.beenSplit = true) :
    ensureSplit m = some m := by
  simp [ensureSplit, h]

theorem textAfter_of_not_mem {s : GoString} {c : Char} (h : c ∉ s) : textAfter c s = [] := by
  induction s with
  | nil => rfl
  | cons x s ih =>
    have hx : x ≠ c := fun e => h (by simp [e])
    rw [textAfter_cons_ne hx]
    exact ih (fun e => h (List.mem_cons_of_mem _ e))

theorem dropLast_of_length_le_one {α : Type} (l : List α) (h : ¬ 1 < l.length) :
    l.dropLast = [] := by
  match l, h with
  | [], _ => rfl
  | [_], _ => rfl
  | _ :: _ :: _, h => simp at h

/-- The state a fresh value is in after its first deriving accessor, when the
full type has a `/`. -/
theorem derived_new_slash (s : GoString) (p : ParamMap) (h : MainSubSplitCharacter ∈ s) :
    derived (mediaType.new s p) =
      { fullType := s, params := p, beenSplit := true,
        mainType := textBefore MainSubSplitCharacter s,
        trees := (Split (textBefore SuffixCharacter
          (textBefore MainSubSplitCharacter (textAfter MainSubSplitCharacter s)))
          TreeSeparatorCharacter).dropLast,
        subType := (Split (textBefore SuffixCharacter
          (textBefore MainSubSplitCharacter (textAfter MainSubSplitCharacter s)))
          TreeSeparatorCharacter).getLastD [],
        suffix := textBefore SuffixCharacter (textAfter SuffixCharacter
          (textBefore MainSubSplitCharacter (textAfter MainSubSplitCharacter s))) } := by
  have h1 : MainSubSplitCharacter ∈ (mediaType.new s p).fullType := h
  unfold derived
  rw [if_pos h1]
  simp only [mediaType.new]
  congr 1
  · split
    · rfl
    · rename_i h2; exact (dropLast_of_length_le_one _ h2).symm
  · split
    · rfl
    · rename_i h2; rw [textAfter_of_not_mem h2]; rfl

/-- The state a fresh value is in after its first deriving accessor, when the
full type has no `/`. -/
theorem derived_new_no_slash (s : GoString) (p : ParamMap) (h : MainSubSplitCharacter ∉ s) :
    derived (mediaType.new s p) =
      { fullType := s, params := p, beenSplit := true, mainType := s,
        trees := [], subType := [], suffix := [] } := by
  have h1 : MainSubSplitCharacter ∉ (mediaType.new s p).fullType := h
  unfold derived
  rw [if_neg h1]
  rfl

theorem MainType_new (s : GoString) (p : ParamMap) :
    MainType (mediaType.new s p) =
      some ((derived (mediaType.new s p)).mainType, derived (mediaType.new s p)) := by
  simp [MainType, ensureSplit_fresh (m := mediaType.new s p) rfl]

theorem SubType_new (s : GoString) (p : ParamMap) :
    SubType (mediaType.new s p) =
      some ((derived (mediaType.new s p)).subType, derived (mediaType.new s p)) := by
  simp [SubType, ensureSplit_fresh (m := mediaType.new s p) rfl]

theorem Trees_new (s : GoString) (p : ParamMap) :
    Trees (mediaType.new s p) =
      some ((derived (mediaType.new s p)).trees, derived (mediaType.new s p)) := by
  simp [Trees, ensureSplit_fresh (m := mediaType.new s p) rfl]

theorem Suffix_new (s : GoString) (p : ParamMap) :
    Suffix (mediaType.new s p) =
      some ((derived (mediaType.new s p)).suffix, derived (mediaType.new s p)) := by
  simp [Suffix, ensureSplit_fresh (m := mediaType.new s p) rfl]

theorem Prefix_after (m : mediaType) :
    (if 0 < len m.trees then (index m.trees 0).bind fun t => some (t, m) else some ([], m)) =
      some (m.trees.headD [], m) := by
  cases h : m.trees with
  | nil => simp [len]
  | cons t ts => simp [len, index_zero_cons]

theorem Prefix_new (s : GoString) (p : ParamMap) :
    Prefix (mediaType.new s p) =
      some ((derived (mediaType.new s p)).trees.headD [], derived (mediaType.new s p)) := by
  simp only [Prefix, ensureSplit_fresh (m := mediaType.new s p) rfl, Option.some_bind,
    Prefix_after]

/-! ## Counting a separator -/

theorem count_textAfter {s : GoString} {c : Char} (h : c ∈ s) :
    s.count c = (textAfter c s).count c + 1 := by
  have h0 : (textBefore c s).count c = 0 := List.count_eq_zero.2 (not_mem_textBefore c s)
  conv_lhs => rw [← textBefore_append_textAfter h]
  rw [List.count_append, List.count_cons_self, h0]
  omega

theorem mem_of_count_eq_one {s : GoString} {c : Char} (h : s.count c = 1) : c ∈ s :=
  List.count_pos_iff.1 (by omega)

theorem not_mem_textAfter_of_count_eq_one {s : GoString} {c : Char} (h : s.count c = 1) :
    c ∉ textAfter c s := by
  have := count_textAfter (mem_of_count_eq_one h)
  exact List.count_eq_zero.1 (by omega)

theorem textBefore_textAfter_of_count_eq_one {s : GoString} {c : Char} (h : s.count c = 1) :
    textBefore c (textAfter c s) = textAfter c s :=
  textBefore_of_not_mem (not_mem_textAfter_of_count_eq_one h)

theorem textBefore_rest (c : Char) (s : GoString) :
    ∃ rest, s = textBefore c s ++ rest ∧ (rest = [] ∨ ∃ r, rest = c :: r) := by
  by_cases h : c ∈ s
  · exact ⟨c :: textAfter c s, (textBefore_append_textAfter h).symm, Or.inr ⟨_, rfl⟩⟩
  · exact ⟨[], by simp [textBefore_of_not_mem h], Or.inl rfl⟩

theorem derived_new_mainType (s : GoString) (p : ParamMap) :
    (derived (mediaType.new s p)).mainType = textBefore MainSubSplitCharacter s := by
  by_cases h : MainSubSplitCharacter ∈ s
  · rw [derived_new_slash s p h]
  · rw [derived_new_no_slash s p h, textBefore_of_not_mem h]

theorem dropLast_eq_nil_iff {α : Type} (l : List α) : l.dropLast = [] ↔ ¬ 1 < l.length := by
  match l with
  | [] => simp
  | [_] => simp
  | _ :: _ :: _ => simp

theorem getLastD_Split (s : GoString) (c : Char) :
    (Split s c).getLastD [] = (Split s c).getLast (Split_ne_nil s c) := by
  rw [List.getLastD_eq_getLast?, List.getLast?_eq_getLast _ (Split_ne_nil s c)]
  rfl

/-! ## Sequences of accessor calls -/

theorem Prefix_eq (m : mediaType) :
    Prefix m = (ensureSplit m).bind fun m => some (m.trees.headD [], m) := by
  unfold Prefix
  congr 1
  funext m
  exact Prefix_after m

theorem call_done {m : mediaType} (h : m.beenSplit = true) (a : Accessor) :
    ∃ v, call a m = some (v, m) := by
  cases a <;>
    simp [call, MainType, SubType, Trees, Prefix_eq, Suffix, ensureSplit_done h]

theorem call_fresh {m : mediaType} (h : m.beenSplit = false) (a : Accessor) :
    ∃ v, call a m = some (v, if a.derives = true then derived m else m) ∧
      call a (derived m) = some (v, derived m) := by
  cases a <;>
    simp [call, MainType, SubType, Trees, Prefix_eq, Suffix, ensureSplit_fresh h,
      ensureSplit_done (derived_beenSplit m), Accessor.derives, FullType, Parameters,
      derived_fullType, derived_params]

theorem run_done {m : mediaType} (h : m.beenSplit = true) (l : List Accessor) :
    ∃ vs, run l m = some (vs, m) := by
  induction l with
  | nil => exact ⟨[], rfl⟩
  | cons a l ih =>
    obtain ⟨v, hv⟩ := call_done h a
    obtain ⟨vs, hvs⟩ := ih
    exact ⟨v :: vs, by simp [run, hv, hvs]⟩

theorem run_fresh {m : mediaType} (h : m.beenSplit = false) (l : List Accessor) :
    ∃ vs, run l m = some (vs, if l.any Accessor.derives = true then derived m else m) := by
  induction l with
  | nil => exact ⟨[], rfl⟩
  | cons a l ih =>
    obtain ⟨v, hv, -⟩ := call_fresh h a
    by_cases ha : a.derives = true
    · obtain ⟨vs, hvs⟩ := run_done (derived_beenSplit m) l
      rw [if_pos ha] at hv
      exact ⟨v :: vs, by simp [run, hv, hvs, ha]⟩
    · obtain ⟨vs, hvs⟩ := ih
      rw [if_neg ha] at hv
      exact ⟨v :: vs, by simp [run, hv, hvs, ha]⟩

theorem call_frame (a : Accessor) (m : mediaType) :
    ∃ v m', call a m = some (v, m') ∧ m'.fullType = m.fullType ∧ m'.params = m.params := by
  cases h : m.beenSplit with
  | true =>
    obtain ⟨v, hv⟩ := call_done h a
    exact ⟨v, m, hv, rfl, rfl⟩
  | false =>
    obtain ⟨v, hv, -⟩ := call_fresh h a
    refine ⟨v, _, hv, ?_, ?_⟩ <;> split <;> simp [derived_fullType, derived_params]

theorem run_frame (l : List Accessor) (m : mediaType) :
    ∃ vs m', run l m = some (vs, m') ∧ m'.fullType = m.fullType ∧ m'.params = m.params := by
  induction l generalizing m with
  | nil => exact ⟨[], m, rfl, rfl, rfl⟩
  | cons a l ih =>
    obtain ⟨v, m1, hv, hf, hp⟩ := call_frame a m
    obtain ⟨vs, m2, hvs, hf2, hp2⟩ := ih m1
    exact ⟨v :: vs, m2, by simp [run, hv, hvs], hf2.trans hf, hp2.trans hp⟩

/-! ## Joining the pieces of a split -/

theorem join_Split (s : GoString) (c : Char) :
    (Split s c).dropLast.flatMap (fun t => t ++ [c]) ++ (Split s c).getLastD [] = s := by
  induction s with
  | nil => rfl
  | cons x s ih =>
    by_cases h : x = c
    · rw [Split, if_pos h]
      cases hs : Split s c with
      | nil => exact absurd hs (Split_ne_nil s c)
      | cons a l =>
        rw [hs] at ih
        simp only [List.dropLast_cons₂, List.flatMap_cons, List.nil_append, List.getLastD_cons,
          List.singleton_append, List.cons_append, h]
        rw [List.getLastD_cons] at ih
        exact congrArg _ ih
    · rw [Split, if_neg h]
      cases hs : Split s c with
      | nil => exact absurd hs (Split_ne_nil s c)
      | cons a l =>
        rw [hs] at ih
        cases l with
        | nil => simpa using ih
        | cons b l =>
          simp only [List.dropLast_cons₂, List.flatMap_cons, List.getLastD_cons,
            List.cons_append, List.append_assoc] at ih ⊢
          exact congrArg _ ih

theorem reconstruct_new (s : GoString) (p : ParamMap) :
    reconstruct (mediaType.new s p) =
      some ((derived (mediaType.new s p)).mainType ++ [MainSubSplitCharacter]
        ++ (derived (mediaType.new s p)).trees.flatMap (fun t => t ++ [TreeSeparatorCharacter])
        ++ (derived (mediaType.new s p)).subType
        ++ (if (derived (mediaType.new s p)).suffix ≠ [] then
              SuffixCharacter :: (derived (mediaType.new s p)).suffix
            else [])) := by
  simp only [reconstruct, MainType_new, Trees, SubType, Suffix,
    ensureSplit_done (derived_beenSplit _), Option.some_bind]

/-! ## The claims -/

/-- C1, as stated, fails: `a/b+` has exactly one `/` and one `+` after it, its
suffix is empty, and the string rebuilt from the accessors is `a/b`, not the
full type. -/
theorem reconstruct_trailing_plus_differs :
    ("a/b+".toList).count MainSubSplitCharacter = 1 ∧
    (textAfter MainSubSplitCharacter "a/b+".toList).count SuffixCharacter ≤ 1 ∧
    reconstruct (mediaType.new "a/b+".toList []) = some "a/b".toList ∧
    reconstruct (mediaType.new "a/b+".toList []) ≠
      some (FullType (mediaType.new "a/b+".toList [])) := by
  decide

/-- C1, amended: for a full type with exactly one `/` whose part after the `/`
has at most one `+`, and that `+` not as the last character, the main type,
`/`, every tree followed by `.`, the sub-type, and `+` with the suffix when the
suffix is not empty, rebuild the full type. -/
theorem reconstruct_eq_FullType (fullType : GoString) (params : ParamMap)
    (h : fullType.count MainSubSplitCharacter = 1)
    (hplus : (textAfter MainSubSplitCharacter fullType).count SuffixCharacter ≤ 1)
    (hlast : (textAfter MainSubSplitCharacter fullType).getLast? ≠ some SuffixCharacter) :
    reconstruct (mediaType.new fullType params) =
      some (FullType (mediaType.new fullType params)) := by
  have hslash := mem_of_count_eq_one h
  have hd := derived_new_slash fullType params hslash
  rw [textBefore_textAfter_of_count_eq_one h] at hd
  rw [reconstruct_new, hd]
  simp only [FullType, mediaType.new, List.append_assoc, join_Split]
  congr 1
  by_cases hp : SuffixCharacter ∈ textAfter MainSubSplitCharacter fullType
  · have hone : (textAfter MainSubSplitCharacter fullType).count SuffixCharacter = 1 := by
      have := List.count_pos_iff.2 hp
      omega
    rw [textBefore_textAfter_of_count_eq_one hone]
    have hsplit := textBefore_append_textAfter hp
    have hne : textAfter SuffixCharacter (textAfter MainSubSplitCharacter fullType) ≠ [] := by
      intro he
      rw [he] at hsplit
      apply hlast
      rw [← hsplit]
      simp
    rw [if_pos hne, hsplit]
    exact textBefore_append_textAfter hslash
  · rw [textAfter_of_not_mem hp, textBefore_of_not_mem hp]
    simp only [textBefore_nil, ne_eq, not_true_eq_false, if_false, List.append_nil]
    exact textBefore_append_textAfter hslash

/-- The amended C1 at `application/vnd.api+json`. -/
theorem reconstruct_eq_FullType_witness :
    ("application/vnd.api+json".toList).count MainSubSplitCharacter = 1 ∧
    (textAfter MainSubSplitCharacter "application/vnd.api+json".toList).count
      SuffixCharacter ≤ 1 ∧
    (textAfter MainSubSplitCharacter "application/vnd.api+json".toList).getLast? ≠
      some SuffixCharacter ∧
    reconstruct (mediaType.new "application/vnd.api+json".toList []) =
      some (FullType (mediaType.new "application/vnd.api+json".toList [])) :=
  ⟨by decide, by decide, by decide,
    reconstruct_eq_FullType "application/vnd.api+json".toList [] (by decide) (by decide)
      (by decide)⟩

/-- C2: for every full type, `MainType()` returns the text before the first
`/`: the result has no `/`, the full type is the result followed by `/` and a
rest when it has a `/`, and the result is the whole full type when it has none. -/
theorem MainType_is_text_before_first_slash (fullType : GoString) (params : ParamMap) :
    ∃ main m', MainType (mediaType.new fullType params) = some (main, m') ∧
      main = textBefore MainSubSplitCharacter fullType ∧
      MainSubSplitCharacter ∉ main ∧
      (MainSubSplitCharacter ∈ fullType →
        ∃ rest, fullType = main ++ MainSubSplitCharacter :: rest) ∧
      (MainSubSplitCharacter ∉ fullType → main = fullType) := by
  refine ⟨_, _, MainType_new fullType params, derived_new_mainType fullType params, ?_, ?_, ?_⟩
  · rw [derived_new_mainType]; exact not_mem_textBefore _ _
  · intro h
    rw [derived_new_mainType]
    exact ⟨_, (textBefore_append_textAfter h).symm⟩
  · intro h
    rw [derived_new_mainType]
    exact textBefore_of_not_mem h

/-- C3: for a full type with exactly one `/`, with `pre` the text after the `/`
up to its first `+`: `Trees()` followed by `SubType()` is the list of the
`.`-separated segments of `pre` in order, `SubType()` is the last segment,
`Trees()` the segments before it, and `Trees()` is empty exactly when `pre` has
no `.`. -/
theorem Trees_SubType_are_dot_segments (fullType : GoString) (params : ParamMap)
    (h : fullType.count MainSubSplitCharacter = 1) :
    ∃ trees sub m1 m2,
      Trees (mediaType.new fullType params) = some (trees, m1) ∧
      SubType (mediaType.new fullType params) = some (sub, m2) ∧
      trees ++ [sub] =
        (textBefore SuffixCharacter (textAfter MainSubSplitCharacter fullType)).splitOn
          TreeSeparatorCharacter ∧
      ((textBefore SuffixCharacter (textAfter MainSubSplitCharacter fullType)).splitOn
          TreeSeparatorCharacter).getLast? = some sub ∧
      trees = ((textBefore SuffixCharacter (textAfter MainSubSplitCharacter fullType)).splitOn
          TreeSeparatorCharacter).dropLast ∧
      (trees = [] ↔
        TreeSeparatorCharacter ∉
          textBefore SuffixCharacter (textAfter MainSubSplitCharacter fullType)) := by
  have hd := derived_new_slash fullType params (mem_of_count_eq_one h)
  rw [textBefore_textAfter_of_count_eq_one h] at hd
  refine ⟨_, _, _, _, Trees_new fullType params, SubType_new fullType params, ?_, ?_, ?_, ?_⟩
  all_goals rw [hd]
  all_goals simp only []
  · rw [getLastD_Split, List.dropLast_append_getLast, Split_eq_splitOn]
  · rw [getLastD_Split, ← Split_eq_splitOn, List.getLast?_eq_getLast _ (Split_ne_nil _ _)]
  · rw [Split_eq_splitOn]
  · rw [dropLast_eq_nil_iff, ← len_Split_gt_one]
    simp only [len]
    omega

/-- C3 at `application/vnd.criticalstack.swift.plus.v1`. -/
theorem Trees_SubType_are_dot_segments_witness :
    ("application/vnd.criticalstack.swift.plus.v1".toList).count MainSubSplitCharacter = 1 ∧
    ∃ trees sub m1 m2,
      Trees (mediaType.new "application/vnd.criticalstack.swift.plus.v1".toList []) =
        some (trees, m1) ∧
      SubType (mediaType.new "application/vnd.criticalstack.swift.plus.v1".toList []) =
        some (sub, m2) ∧
      trees ++ [sub] =
        (textBefore SuffixCharacter (textAfter MainSubSplitCharacter
          "application/vnd.criticalstack.swift.plus.v1".toList)).splitOn
          TreeSeparatorCharacter ∧
      ((textBefore SuffixCharacter (textAfter MainSubSplitCharacter
          "application/vnd.criticalstack.swift.plus.v1".toList)).splitOn
          TreeSeparatorCharacter).getLast? = some sub ∧
      trees = ((textBefore SuffixCharacter (textAfter MainSubSplitCharacter
          "application/vnd.criticalstack.swift.plus.v1".toList)).splitOn
          TreeSeparatorCharacter).dropLast ∧
      (trees = [] ↔
        TreeSeparatorCharacter ∉
          textBefore SuffixCharacter (textAfter MainSubSplitCharacter
            "application/vnd.criticalstack.swift.plus.v1".toList)) :=
  ⟨by decide,
    Trees_SubType_are_dot_segments "application/vnd.criticalstack.swift.plus.v1".toList []
      (by decide)⟩

/-- C4: for a full type with exactly one `/`, with `sub` the text after the
`/`: `Suffix()` is empty when `sub` has no `+`; otherwise it is the text of `sub`
between its first `+` and its second `+` (or the end of `sub`), which is the
second `+`-separated segment of `sub`. -/
theorem Suffix_is_second_plus_segment (fullType : GoString) (params : ParamMap)
    (h : fullType.count MainSubSplitCharacter = 1) :
    ∃ suffix m', Suffix (mediaType.new fullType params) = some (suffix, m') ∧
      (SuffixCharacter ∉ textAfter MainSubSplitCharacter fullType → suffix = []) ∧
      (SuffixCharacter ∈ textAfter MainSubSplitCharacter fullType →
        suffix = textBefore SuffixCharacter
          (textAfter SuffixCharacter (textAfter MainSubSplitCharacter fullType)) ∧
        ((textAfter MainSubSplitCharacter fullType).splitOn SuffixCharacter)[1]? = some suffix ∧
        SuffixCharacter ∉ suffix ∧
        ∃ pre rest, SuffixCharacter ∉ pre ∧
          textAfter MainSubSplitCharacter fullType = pre ++ SuffixCharacter :: (suffix ++ rest) ∧
          (rest = [] ∨ ∃ r, rest = SuffixCharacter :: r)) := by
  have hd := derived_new_slash fullType params (mem_of_count_eq_one h)
  rw [textBefore_textAfter_of_count_eq_one h] at hd
  refine ⟨_, _, Suffix_new fullType params, ?_, ?_⟩
  all_goals rw [hd]
  all_goals simp only []
  · intro h1
    rw [textAfter_of_not_mem h1]
    rfl
  · intro h1
    refine ⟨trivial, ?_, not_mem_textBefore _ _, ?_⟩
    · rw [← Split_eq_splitOn, Split_unfold, if_pos h1, Split_unfold (textAfter _ _)]
      simp
    · obtain ⟨rest, hrest, hshape⟩ := textBefore_rest SuffixCharacter
        (textAfter SuffixCharacter (textAfter MainSubSplitCharacter fullType))
      refine ⟨textBefore SuffixCharacter (textAfter MainSubSplitCharacter fullType), rest,
        not_mem_textBefore _ _, ?_, hshape⟩
      rw [← hrest]
      exact (textBefore_append_textAfter h1).symm

/-- C4 at `application/vnd.api+json`. -/
theorem Suffix_is_second_plus_segment_witness :
    ("application/vnd.api+json".toList).count MainSubSplitCharacter = 1 ∧
    ∃ suffix m', Suffix (mediaType.new "application/vnd.api+json".toList []) =
        some (suffix, m') ∧
      (SuffixCharacter ∉ textAfter MainSubSplitCharacter "application/vnd.api+json".toList →
        suffix = []) ∧
      (SuffixCharacter ∈ textAfter MainSubSplitCharacter "application/vnd.api+json".toList →
        suffix = textBefore SuffixCharacter
          (textAfter SuffixCharacter
            (textAfter MainSubSplitCharacter "application/vnd.api+json".toList)) ∧
        ((textAfter MainSubSplitCharacter "application/vnd.api+json".toList).splitOn
          SuffixCharacter)[1]? = some suffix ∧
        SuffixCharacter ∉ suffix ∧
        ∃ pre rest, SuffixCharacter ∉ pre ∧
          textAfter MainSubSplitCharacter "application/vnd.api+json".toList =
            pre ++ SuffixCharacter :: (suffix ++ rest) ∧
          (rest = [] ∨ ∃ r, rest = SuffixCharacter :: r)) :=
  ⟨by decide, Suffix_is_second_plus_segment "application/vnd.api+json".toList [] (by decide)⟩

/-- C5: for every full type, `Prefix()` is the first element of `Trees()` when
`Trees()` is not empty and the empty string when it is, whether `Prefix()` is
the first call on the value or follows the call of `Trees()`. -/
theorem Prefix_is_first_tree (fullType : GoString) (params : ParamMap) :
    ∃ trees pre m1 m2 m3,
      Trees (mediaType.new fullType params) = some (trees, m1) ∧
      Prefix (mediaType.new fullType params) = some (pre, m2) ∧
      Prefix m1 = some (pre, m3) ∧
      (trees ≠ [] → trees.head? = some pre) ∧
      (trees = [] → pre = []) := by
  refine ⟨_, _, _, _, derived (mediaType.new fullType params), Trees_new fullType params,
    Prefix_new fullType params, ?_, ?_, ?_⟩
  · simp only [Prefix, ensureSplit_done (derived_beenSplit _), Option.some_bind, Prefix_after]
  · intro h
    cases ht : (derived (mediaType.new fullType params)).trees with
    | nil => exact absurd ht h
    | cons t ts => rfl
  · intro h
    rw [h]
    rfl

/-- C6: for a full type without `/` (the empty string too), `MainType()` is the
full type, `SubType()`, `Suffix()` and `Prefix()` are the empty string and
`Trees()` is the empty sequence. -/
theorem no_slash_only_main (fullType : GoString) (params : ParamMap)
    (h : MainSubSplitCharacter ∉ fullType) :
    (MainType (mediaType.new fullType params)).map Prod.fst = some fullType ∧
    (SubType (mediaType.new fullType params)).map Prod.fst = some [] ∧
    (Suffix (mediaType.new fullType params)).map Prod.fst = some [] ∧
    (Prefix (mediaType.new fullType params)).map Prod.fst = some [] ∧
    (Trees (mediaType.new fullType params)).map Prod.fst = some [] := by
  rw [MainType_new, SubType_new, Suffix_new, Prefix_new, Trees_new,
    derived_new_no_slash fullType params h]
  simp

/-- C6 at `textonly`. -/
theorem no_slash_only_main_witness :
    MainSubSplitCharacter ∉ "textonly".toList ∧
    (MainType (mediaType.new "textonly".toList [])).map Prod.fst = some "textonly".toList ∧
    (SubType (mediaType.new "textonly".toList [])).map Prod.fst = some [] ∧
    (Suffix (mediaType.new "textonly".toList [])).map Prod.fst = some [] ∧
    (Prefix (mediaType.new "textonly".toList [])).map Prod.fst = some [] ∧
    (Trees (mediaType.new "textonly".toList [])).map Prod.fst = some [] :=
  ⟨by decide, no_slash_only_main "textonly".toList [] (by decide)⟩

/-- C7: whatever the normalizer is, `Parse` returns the normalizer's error; it
returns an error and no value exactly when the normalizer returns an error;
and when the normalizer returns none, `Parse` returns a value and no error,
whose `FullType()` is the normalized string and whose `Parameters()` is the
normalizer's parameter map. -/
theorem Parse_follows_normalizer {E : Type}
    (ParseMediaType : GoString → GoString × ParamMap × Option E) (raw : GoString) :
    (Parse ParseMediaType raw).2 = (ParseMediaType raw).2.2 ∧
    (((Parse ParseMediaType raw).2 ≠ none ∧ (Parse ParseMediaType raw).1 = none) ↔
      (ParseMediaType raw).2.2 ≠ none) ∧
    ((Parse ParseMediaType raw).1 = none ↔ (ParseMediaType raw).2.2 ≠ none) ∧
    ((ParseMediaType raw).2.2 = none →
      ∃ m, Parse ParseMediaType raw = (some m, none) ∧
        FullType m = (ParseMediaType raw).1 ∧
        Parameters m = (ParseMediaType raw).2.1 ∧
        m.beenSplit = false) := by
  rcases hn : ParseMediaType raw with ⟨normalized, params, err⟩
  cases err with
  | none => simp [Parse, hn, FullType, Parameters, mediaType.new]
  | some e => simp [Parse, hn]

/-- C8: on a fresh value, after any sequence of accessor calls every accessor
returns what it returns as the first call on the fresh value; the state after
the sequence is the fresh one when no deriving accessor was called and the
result of one run of `splitTypes` on the fresh value otherwise; and once a
deriving accessor has run, a further call leaves the state as it is. -/
theorem accessors_idempotent (fullType : GoString) (params : ParamMap)
    (before : List Accessor) (a : Accessor) :
    ∃ vs st v st',
      run before (mediaType.new fullType params) = some (vs, st) ∧
      call a st = some (v, st') ∧
      (call a (mediaType.new fullType params)).map Prod.fst = some v ∧
      some st = (if before.any Accessor.derives = true then
                  splitTypes (mediaType.new fullType params)
                else some (mediaType.new fullType params)) ∧
      some st' = (if (before ++ [a]).any Accessor.derives = true then
                  splitTypes (mediaType.new fullType params)
                else some (mediaType.new fullType params)) ∧
      (before.any Accessor.derives = true → st' = st) := by
  have hf : (mediaType.new fullType params).beenSplit = false := rfl
  obtain ⟨vs, hvs⟩ := run_fresh hf before
  obtain ⟨v, hv, hv'⟩ := call_fresh hf a
  rw [splitTypes_eq]
  by_cases hb : before.any Accessor.derives = true
  · rw [if_pos hb] at hvs
    refine ⟨vs, _, v, _, hvs, hv', by rw [hv]; rfl, by rw [if_pos hb], ?_, fun _ => rfl⟩
    rw [List.any_append, hb, Bool.true_or, if_pos rfl]
  · rw [if_neg hb] at hvs
    refine ⟨vs, _, v, _, hvs, hv, by rw [hv]; rfl, by rw [if_neg hb], ?_, fun h => absurd h hb⟩
    have hb' : before.any Accessor.derives = false := by simpa using hb
    by_cases ha : a.derives = true <;> simp [List.any_append, hb', ha]

/-- C9: in every state `splitTypes` returns, and so does every accessor; of the
split results, element 0 always exists, element 1 exists under the guard
`1 < len`, and for the tree split the last element `[len-1]` and the slice
`[0:len-1]` are within bounds. -/
theorem splitTypes_total (m : mediaType) (s : GoString) (c : Char) :
    (∃ m', splitTypes m = some m') ∧
    (∀ a, ∃ v m', call a m = some (v, m')) ∧
    (∃ x, index (Split s c) 0 = some x) ∧
    (1 < len (Split s c) → ∃ x, index (Split s c) 1 = some x) ∧
    (∃ x, index (Split s c) (len (Split s c) - 1) = some x) ∧
    (∃ l, slice (Split s c) 0 (len (Split s c) - 1) = some l) := by
  refine ⟨⟨_, splitTypes_eq m⟩, ?_, ⟨_, index_Split_zero s c⟩, ?_,
    ⟨_, index_last _ (Split_ne_nil s c)⟩, ⟨_, slice_dropLast _ (Split_ne_nil s c)⟩⟩
  · intro a
    obtain ⟨v, m', h, -, -⟩ := call_frame a m
    exact ⟨v, m', h⟩
  · intro h
    exact ⟨_, index_Split_one ((len_Split_gt_one s c).1 h)⟩

/-- C10: the derivation step and every accessor leave `fullType` and `params`
as they are, in every state; so on a value built from `fullType` and `params`,
`FullType()` and `Parameters()` return these two before any call and after any
sequence of accessor calls. -/
theorem fullType_params_frame (fullType : GoString) (params : ParamMap) (m : mediaType)
    (calls : List Accessor) :
    (∃ m', splitTypes m = some m' ∧ m'.fullType = m.fullType ∧ m'.params = m.params) ∧
    (∀ a, ∃ v m', call a m = some (v, m') ∧ m'.fullType = m.fullType ∧ m'.params = m.params) ∧
    FullType (mediaType.new fullType params) = fullType ∧
    Parameters (mediaType.new fullType params) = params ∧
    (∃ vs m', run calls (mediaType.new fullType params) = some (vs, m') ∧
      FullType m' = fullType ∧ Parameters m' = params) := by
  refine ⟨⟨_, splitTypes_eq m, derived_fullType m, derived_params m⟩,
    fun a => call_frame a m, rfl, rfl, ?_⟩
  obtain ⟨vs, m', h, hf, hp⟩ := run_frame calls (mediaType.new fullType params)
  exact ⟨vs, m', h, hf, hp⟩

/-! ## Text before and after a separator inside a longer string -/

theorem textBefore_append_sep (c : Char) (a b : GoString) :
    textBefore c (a ++ c :: b) = textBefore c a := by
  induction a with
  | nil => rw [List.nil_append, textBefore_cons_self, textBefore_nil]
  | cons x a ih =>
    by_cases h : x = c
    · subst h
      rw [List.cons_append, textBefore_cons_self, textBefore_cons_self]
    · rw [List.cons_append, textBefore_cons_ne h, textBefore_cons_ne h, ih]

theorem textAfter_append_of_mem {c : Char} {a : GoString} (h : c ∈ a) (b : GoString) :
    textAfter c (a ++ b) = textAfter c a ++ b := by
  induction a with
  | nil => simp at h
  | cons x a ih =>
    by_cases hx : x = c
    · subst hx
      rw [List.cons_append, textAfter_cons_self, textAfter_cons_self]
    · have ha : c ∈ a := by
        rcases List.mem_cons.1 h with h1 | h1
        · exact absurd h1.symm hx
        · exact h1
      rw [List.cons_append, textAfter_cons_ne hx, textAfter_cons_ne hx, ih ha]

theorem textAfter_append_sep {c : Char} {a : GoString} (h : c ∉ a) (b : GoString) :
    textAfter c (a ++ c :: b) = b := by
  induction a with
  | nil => rw [List.nil_append, textAfter_cons_self]
  | cons x a ih =>
    have hx : x ≠ c := fun e => h (by simp [e])
    rw [List.cons_append, textAfter_cons_ne hx]
    exact ih (fun e => h (List.mem_cons_of_mem _ e))

theorem mem_of_mem_textBefore {c x : Char} {s : GoString} (h : x ∈ textBefore c s) : x ∈ s :=
  (List.takeWhile_sublist _).subset h

theorem mem_of_mem_textAfter {c x : Char} {s : GoString} (h : x ∈ textAfter c s) : x ∈ s :=
  (List.dropWhile_sublist _).subset (List.mem_of_mem_drop h)

/-- A piece of a split has no separator in it and is made of characters of the
string that was split. -/
theorem piece_of_Split (s : GoString) (c : Char) :
    ∀ piece ∈ Split s c, c ∉ piece ∧ ∀ x ∈ piece, x ∈ s := by
  induction s with
  | nil =>
    intro piece hp
    have : piece = [] := by simpa [Split] using hp
    subst this
    simp
  | cons y s ih =>
    intro piece hp
    by_cases h : y = c
    · rw [Split, if_pos h] at hp
      rcases List.mem_cons.1 hp with h1 | h1
      · subst h1
        simp
      · exact ⟨(ih piece h1).1, fun x hx => List.mem_cons_of_mem _ ((ih piece h1).2 x hx)⟩
    · rw [Split, if_neg h] at hp
      cases hs : Split s c with
      | nil => exact absurd hs (Split_ne_nil s c)
      | cons a l =>
        rw [hs] at hp ih
        rcases List.mem_cons.1 hp with h1 | h1
        · subst h1
          have ha := ih a (List.mem_cons_self _ _)
          refine ⟨?_, ?_⟩
          · intro hc
            rcases List.mem_cons.1 hc with h2 | h2
            · exact h h2.symm
            · exact ha.1 h2
          · intro x hx
            rcases List.mem_cons.1 hx with h2 | h2
            · rw [h2]; exact List.mem_cons_self _ _
            · exact List.mem_cons_of_mem _ (ha.2 x h2)
        · have hl := ih piece (List.mem_cons_of_mem _ h1)
          exact ⟨hl.1, fun x hx => List.mem_cons_of_mem _ (hl.2 x hx)⟩

theorem getLastD_Split_mem (s : GoString) (c : Char) : (Split s c).getLastD [] ∈ Split s c := by
  rw [getLastD_Split]
  exact List.getLast_mem _

/-! ## Two full types with the same derived fields -/

theorem call_new_eq_of_fields (f1 f2 : GoString) (p1 p2 : ParamMap)
    (hmain : (derived (mediaType.new f1 p1)).mainType = (derived (mediaType.new f2 p2)).mainType)
    (hsub : (derived (mediaType.new f1 p1)).subType = (derived (mediaType.new f2 p2)).subType)
    (htrees : (derived (mediaType.new f1 p1)).trees = (derived (mediaType.new f2 p2)).trees)
    (hsuffix : (derived (mediaType.new f1 p1)).suffix = (derived (mediaType.new f2 p2)).suffix)
    (a : Accessor) (ha : a.derives = true) :
    ∃ v, (call a (mediaType.new f1 p1)).map Prod.fst = some v ∧
      (call a (mediaType.new f2 p2)).map Prod.fst = some v := by
  cases a <;>
    simp [call, MainType_new, SubType_new, Trees_new, Prefix_new, Suffix_new, Accessor.derives,
      hmain, hsub, htrees, hsuffix] at ha ⊢

theorem call_new_eq_of_parts (f1 f2 : GoString) (p1 p2 : ParamMap)
    (h1 : MainSubSplitCharacter ∈ f1) (h2 : MainSubSplitCharacter ∈ f2)
    (hmain : textBefore MainSubSplitCharacter f1 = textBefore MainSubSplitCharacter f2)
    (hpre :
      textBefore SuffixCharacter
          (textBefore MainSubSplitCharacter (textAfter MainSubSplitCharacter f1)) =
        textBefore SuffixCharacter
          (textBefore MainSubSplitCharacter (textAfter MainSubSplitCharacter f2)))
    (hsuffix :
      textBefore SuffixCharacter (textAfter SuffixCharacter
          (textBefore MainSubSplitCharacter (textAfter MainSubSplitCharacter f1))) =
        textBefore SuffixCharacter (textAfter SuffixCharacter
          (textBefore MainSubSplitCharacter (textAfter MainSubSplitCharacter f2))))
    (a : Accessor) (ha : a.derives = true) :
    ∃ v, (call a (mediaType.new f1 p1)).map Prod.fst = some v ∧
      (call a (mediaType.new f2 p2)).map Prod.fst = some v := by
  apply call_new_eq_of_fields f1 f2 p1 p2 ?_ ?_ ?_ ?_ a ha
  all_goals rw [derived_new_slash f1 p1 h1, derived_new_slash f2 p2 h2]
  · exact hmain
  · simp only [hpre]
  · simp only [hpre]
  · exact hsuffix

theorem sub_part_append_sep (c : Char) (m x : GoString) :
    textBefore c (textAfter c (m ++ c :: x)) =
      if c ∈ m then textBefore c (textAfter c m) else textBefore c x := by
  by_cases h : c ∈ m
  · rw [if_pos h, textAfter_append_of_mem h, textBefore_append_sep]
  · rw [if_neg h, textAfter_append_sep h]

/-- Two full types `m/x1` and `m/x2` whose sub parts `x1`, `x2` have the same
text before the first `+` and the same second `+`-segment give the same
results, whatever `m` is. -/
theorem call_new_eq_of_sub_parts (m x1 x2 : GoString) (p : ParamMap)
    (hpre :
      textBefore SuffixCharacter (textBefore MainSubSplitCharacter x1) =
        textBefore SuffixCharacter (textBefore MainSubSplitCharacter x2))
    (hsuffix :
      textBefore SuffixCharacter (textAfter SuffixCharacter (textBefore MainSubSplitCharacter x1)) =
        textBefore SuffixCharacter
          (textAfter SuffixCharacter (textBefore MainSubSplitCharacter x2)))
    (a : Accessor) (ha : a.derives = true) :
    ∃ v, (call a (mediaType.new (m ++ MainSubSplitCharacter :: x1) p)).map Prod.fst = some v ∧
      (call a (mediaType.new (m ++ MainSubSplitCharacter :: x2) p)).map Prod.fst = some v := by
  apply call_new_eq_of_parts _ _ p p (by simp) (by simp) ?_ ?_ ?_ a ha
  · rw [textBefore_append_sep, textBefore_append_sep]
  · rw [sub_part_append_sep, sub_part_append_sep]
    split
    · rfl
    · exact hpre
  · rw [sub_part_append_sep, sub_part_append_sep]
    split
    · rfl
    · exact hsuffix

theorem derived_new_append (m x : GoString) (p : ParamMap) (hm : MainSubSplitCharacter ∉ m)
    (hx : MainSubSplitCharacter ∉ x) :
    (derived (mediaType.new (m ++ MainSubSplitCharacter :: x) p)).mainType = m ∧
    (derived (mediaType.new (m ++ MainSubSplitCharacter :: x) p)).suffix =
      textBefore SuffixCharacter (textAfter SuffixCharacter x) := by
  rw [derived_new_slash _ p (by simp)]
  simp only []
  rw [textBefore_append_sep, textBefore_of_not_mem hm, textAfter_append_sep hm,
    textBefore_of_not_mem hx]
  exact ⟨rfl, rfl⟩

theorem tree_piece_separator_free (r : GoString) :
    ∀ piece ∈ Split (textBefore SuffixCharacter (textBefore MainSubSplitCharacter r))
        TreeSeparatorCharacter,
      MainSubSplitCharacter ∉ piece ∧ SuffixCharacter ∉ piece ∧
        TreeSeparatorCharacter ∉ piece := by
  intro piece hp
  obtain ⟨hdot, hsub⟩ := piece_of_Split _ _ piece hp
  refine ⟨?_, ?_, hdot⟩
  · intro hc
    exact not_mem_textBefore MainSubSplitCharacter r (mem_of_mem_textBefore (hsub _ hc))
  · intro hc
    exact not_mem_textBefore SuffixCharacter _ (hsub _ hc)

theorem suffix_separator_free (r : GoString) :
    MainSubSplitCharacter ∉
        textBefore SuffixCharacter
          (textAfter SuffixCharacter (textBefore MainSubSplitCharacter r)) ∧
      SuffixCharacter ∉
        textBefore SuffixCharacter
          (textAfter SuffixCharacter (textBefore MainSubSplitCharacter r)) := by
  refine ⟨?_, not_mem_textBefore _ _⟩
  intro hc
  exact not_mem_textBefore MainSubSplitCharacter r
    (mem_of_mem_textAfter (mem_of_mem_textBefore hc))

theorem parse_result_is_new {E : Type}
    (ParseMediaType : GoString → GoString × ParamMap × Option E) (raw : GoString)
    (m0 : mediaType) (h : (Parse ParseMediaType raw).1 = some m0) :
    m0 = mediaType.new (ParseMediaType raw).1 (ParseMediaType raw).2.1 := by
  rcases hn : ParseMediaType raw with ⟨normalized, params, err⟩
  rw [Parse, hn] at h
  cases err with
  | none => simpa using h.symm
  | some e => simp at h

/-! ## The claims, continued -/

/-- C11, as stated, fails: for `a/b/c+d` the remainder after the first `/` is
`b/c+d`, whose sub-type would be `b/c` and whose suffix would be `d`; the code
returns the sub-type `b` and the empty suffix, the same as for `a/b`. -/
theorem second_slash_text_is_dropped :
    MainSubSplitCharacter ∈ "a/b/c+d".toList ∧
    textAfter MainSubSplitCharacter "a/b/c+d".toList = "b/c+d".toList ∧
    (SubType (mediaType.new "a/b/c+d".toList [])).map Prod.fst = some "b".toList ∧
    (Split (textBefore SuffixCharacter (textAfter MainSubSplitCharacter "a/b/c+d".toList))
        TreeSeparatorCharacter).getLast? = some "b/c".toList ∧
    (Suffix (mediaType.new "a/b/c+d".toList [])).map Prod.fst = some [] ∧
    (Split (textAfter MainSubSplitCharacter "a/b/c+d".toList) SuffixCharacter)[1]? =
      some "d".toList ∧
    (SubType (mediaType.new "a/b/c+d".toList [])).map Prod.fst ≠
      (Split (textBefore SuffixCharacter (textAfter MainSubSplitCharacter "a/b/c+d".toList))
        TreeSeparatorCharacter).getLast? ∧
    (Suffix (mediaType.new "a/b/c+d".toList [])).map Prod.fst ≠
      (Split (textAfter MainSubSplitCharacter "a/b/c+d".toList) SuffixCharacter)[1]? ∧
    (SubType (mediaType.new "a/b".toList [])).map Prod.fst = some "b".toList ∧
    (Suffix (mediaType.new "a/b".toList [])).map Prod.fst = some [] := by
  decide

/-- C11, amended: for a full type with at least one `/`, the second part, from
which `Suffix()`, `Trees()` and `SubType()` are derived, is the text between
the first `/` and the second `/` (or the end of the full type when there is no
second `/`): it has no `/`, the remainder after the first `/` is this part
followed by nothing or by a rest that starts with `/`, and every deriving
accessor returns what it returns for the main type, `/` and this part alone. -/
theorem second_part_ends_at_second_slash (fullType : GoString) (params : ParamMap)
    (h : MainSubSplitCharacter ∈ fullType) :
    MainSubSplitCharacter ∉
      textBefore MainSubSplitCharacter (textAfter MainSubSplitCharacter fullType) ∧
    (∃ rest,
      textAfter MainSubSplitCharacter fullType =
        textBefore MainSubSplitCharacter (textAfter MainSubSplitCharacter fullType) ++ rest ∧
      (rest = [] ∨ ∃ r, rest = MainSubSplitCharacter :: r)) ∧
    (∃ suffix trees sub m1 m2 m3,
      Suffix (mediaType.new fullType params) = some (suffix, m1) ∧
      Trees (mediaType.new fullType params) = some (trees, m2) ∧
      SubType (mediaType.new fullType params) = some (sub, m3) ∧
      ((textBefore MainSubSplitCharacter (textAfter MainSubSplitCharacter fullType)).splitOn
          SuffixCharacter)[1]?.getD [] = suffix ∧
      trees ++ [sub] =
        (textBefore SuffixCharacter
          (textBefore MainSubSplitCharacter (textAfter MainSubSplitCharacter fullType))).splitOn
            TreeSeparatorCharacter) ∧
    (∀ a : Accessor, a.derives = true →
      ∃ v, (call a (mediaType.new fullType params)).map Prod.fst = some v ∧
        (call a (mediaType.new
          (textBefore MainSubSplitCharacter fullType ++ MainSubSplitCharacter ::
            textBefore MainSubSplitCharacter (textAfter MainSubSplitCharacter fullType))
          params)).map Prod.fst = some v) := by
  have hd := derived_new_slash fullType params h
  refine ⟨not_mem_textBefore _ _, ?_, ?_, ?_⟩
  · obtain ⟨rest, h1, h2⟩ := textBefore_rest MainSubSplitCharacter
      (textAfter MainSubSplitCharacter fullType)
    exact ⟨rest, h1, h2⟩
  · refine ⟨_, _, _, _, _, _, Suffix_new fullType params, Trees_new fullType params,
      SubType_new fullType params, ?_, ?_⟩
    · rw [hd, ← Split_eq_splitOn, Split_unfold]
      by_cases hp : SuffixCharacter ∈
          textBefore MainSubSplitCharacter (textAfter MainSubSplitCharacter fullType)
      · rw [if_pos hp, Split_unfold (textAfter _ _)]
        simp
      · rw [if_neg hp, textAfter_of_not_mem hp]
        simp [textBefore_nil]
    · rw [hd]
      simp only []
      rw [getLastD_Split, List.dropLast_append_getLast, Split_eq_splitOn]
  · have hnot : MainSubSplitCharacter ∉ textBefore MainSubSplitCharacter fullType :=
      not_mem_textBefore _ _
    have hsub : MainSubSplitCharacter ∉
        textBefore MainSubSplitCharacter (textAfter MainSubSplitCharacter fullType) :=
      not_mem_textBefore _ _
    intro a ha
    apply call_new_eq_of_parts fullType _ params params h (by simp) ?_ ?_ ?_ a ha
    · rw [textBefore_append_sep, textBefore_of_not_mem hnot]
    · rw [textAfter_append_sep hnot, textBefore_of_not_mem hsub]
    · rw [textAfter_append_sep hnot, textBefore_of_not_mem hsub]

/-- C11, amended, at `a/b.c+d/e`. -/
theorem second_part_ends_at_second_slash_witness :
    MainSubSplitCharacter ∈ "a/b.c+d/e".toList ∧
    (MainSubSplitCharacter ∉
      textBefore MainSubSplitCharacter (textAfter MainSubSplitCharacter "a/b.c+d/e".toList) ∧
    (∃ rest,
      textAfter MainSubSplitCharacter "a/b.c+d/e".toList =
        textBefore MainSubSplitCharacter (textAfter MainSubSplitCharacter "a/b.c+d/e".toList) ++ rest ∧
      (rest = [] ∨ ∃ r, rest = MainSubSplitCharacter :: r)) ∧
    (∃ suffix trees sub m1 m2 m3,
      Suffix (mediaType.new "a/b.c+d/e".toList []) = some (suffix, m1) ∧
      Trees (mediaType.new "a/b.c+d/e".toList []) = some (trees, m2) ∧
      SubType (mediaType.new "a/b.c+d/e".toList []) = some (sub, m3) ∧
      ((textBefore MainSubSplitCharacter (textAfter MainSubSplitCharacter "a/b.c+d/e".toList)).splitOn
          SuffixCharacter)[1]?.getD [] = suffix ∧
      trees ++ [sub] =
        (textBefore SuffixCharacter
          (textBefore MainSubSplitCharacter (textAfter MainSubSplitCharacter "a/b.c+d/e".toList))).splitOn
            TreeSeparatorCharacter) ∧
    (∀ a : Accessor, a.derives = true →
      ∃ v, (call a (mediaType.new "a/b.c+d/e".toList [])).map Prod.fst = some v ∧
        (call a (mediaType.new
          (textBefore MainSubSplitCharacter "a/b.c+d/e".toList ++ MainSubSplitCharacter ::
            textBefore MainSubSplitCharacter (textAfter MainSubSplitCharacter "a/b.c+d/e".toList))
          [])).map Prod.fst = some v)) :=
  ⟨by decide, second_part_ends_at_second_slash "a/b.c+d/e".toList [] (by decide)⟩

/-- C12: for `s` and `t` without `/` and `+` and `u` without `/`, every
deriving accessor returns the same for `m/s+t+u` as for `m/s+t`; and for a
main type `m` (a string without `/`) `MainType()` is `m` and `Suffix()` is `t`
for both, so the text after the second `+` is in no derived field. -/
theorem multi_plus_truncation (m s t u : GoString) (params : ParamMap)
    (hs : MainSubSplitCharacter ∉ s) (hs' : SuffixCharacter ∉ s)
    (ht : MainSubSplitCharacter ∉ t) (ht' : SuffixCharacter ∉ t)
    (hu : MainSubSplitCharacter ∉ u) :
    (∀ a : Accessor, a.derives = true →
      ∃ v,
        (call a (mediaType.new
          (m ++ [MainSubSplitCharacter] ++ s ++ [SuffixCharacter] ++ t ++ [SuffixCharacter] ++ u)
          params)).map Prod.fst = some v ∧
        (call a (mediaType.new
          (m ++ [MainSubSplitCharacter] ++ s ++ [SuffixCharacter] ++ t)
          params)).map Prod.fst = some v) ∧
    (MainSubSplitCharacter ∉ m →
      (MainType (mediaType.new
        (m ++ [MainSubSplitCharacter] ++ s ++ [SuffixCharacter] ++ t ++ [SuffixCharacter] ++ u)
        params)).map Prod.fst = some m ∧
      (MainType (mediaType.new
        (m ++ [MainSubSplitCharacter] ++ s ++ [SuffixCharacter] ++ t)
        params)).map Prod.fst = some m ∧
      (Suffix (mediaType.new
        (m ++ [MainSubSplitCharacter] ++ s ++ [SuffixCharacter] ++ t ++ [SuffixCharacter] ++ u)
        params)).map Prod.fst = some t ∧
      (Suffix (mediaType.new
        (m ++ [MainSubSplitCharacter] ++ s ++ [SuffixCharacter] ++ t)
        params)).map Prod.fst = some t) := by
  have e1 : m ++ [MainSubSplitCharacter] ++ s ++ [SuffixCharacter] ++ t ++ [SuffixCharacter] ++ u
      = m ++ MainSubSplitCharacter :: (s ++ SuffixCharacter :: (t ++ SuffixCharacter :: u)) := by
    simp
  have e2 : m ++ [MainSubSplitCharacter] ++ s ++ [SuffixCharacter] ++ t
      = m ++ MainSubSplitCharacter :: (s ++ SuffixCharacter :: t) := by
    simp
  have hne : MainSubSplitCharacter ≠ SuffixCharacter := by decide
  have hx1 : MainSubSplitCharacter ∉ s ++ SuffixCharacter :: (t ++ SuffixCharacter :: u) := by
    simp [hs, ht, hu, hne]
  have hx2 : MainSubSplitCharacter ∉ s ++ SuffixCharacter :: t := by
    simp [hs, ht, hne]
  have hsfx1 : textBefore SuffixCharacter (textAfter SuffixCharacter
      (s ++ SuffixCharacter :: (t ++ SuffixCharacter :: u))) = t := by
    rw [textAfter_append_sep hs', textBefore_append_sep, textBefore_of_not_mem ht']
  have hsfx2 : textBefore SuffixCharacter (textAfter SuffixCharacter
      (s ++ SuffixCharacter :: t)) = t := by
    rw [textAfter_append_sep hs', textBefore_of_not_mem ht']
  rw [e1, e2]
  refine ⟨fun a ha => call_new_eq_of_sub_parts m _ _ params ?_ ?_ a ha, ?_⟩
  · rw [textBefore_of_not_mem hx1, textBefore_of_not_mem hx2, textBefore_append_sep,
      textBefore_append_sep]
  · rw [textBefore_of_not_mem hx1, textBefore_of_not_mem hx2, hsfx1, hsfx2]
  · intro hm
    obtain ⟨a1, a2⟩ := derived_new_append m _ params hm hx1
    obtain ⟨b1, b2⟩ := derived_new_append m _ params hm hx2
    rw [MainType_new, MainType_new, Suffix_new, Suffix_new, a1, a2, b1, b2, hsfx1, hsfx2]
    simp

/-- C12 at `application/vnd.api+json+xml`. -/
theorem multi_plus_truncation_witness :
    MainSubSplitCharacter ∉ "vnd.api".toList ∧ SuffixCharacter ∉ "vnd.api".toList ∧
    MainSubSplitCharacter ∉ "json".toList ∧ SuffixCharacter ∉ "json".toList ∧
    MainSubSplitCharacter ∉ "xml".toList ∧ MainSubSplitCharacter ∉ "application".toList ∧
    (Suffix (mediaType.new
      ("application".toList ++ [MainSubSplitCharacter] ++ "vnd.api".toList ++ [SuffixCharacter]
        ++ "json".toList ++ [SuffixCharacter] ++ "xml".toList) [])).map Prod.fst =
      some "json".toList ∧
    (Suffix (mediaType.new
      ("application".toList ++ [MainSubSplitCharacter] ++ "vnd.api".toList ++ [SuffixCharacter]
        ++ "json".toList) [])).map Prod.fst = some "json".toList :=
  ⟨by decide, by decide, by decide, by decide, by decide, by decide,
   ((multi_plus_truncation "application".toList "vnd.api".toList "json".toList "xml".toList []
      (by decide) (by decide) (by decide) (by decide) (by decide)).2 (by decide)).2.2.1,
   ((multi_plus_truncation "application".toList "vnd.api".toList "json".toList "xml".toList []
      (by decide) (by decide) (by decide) (by decide) (by decide)).2 (by decide)).2.2.2⟩

/-- C13: every state reached from the value of a successful `Parse` by a
sequence of accessor calls either has the flag false and `mainType`,
`subType`, `suffix`, `trees` empty, or has the flag true and is the state one
run of `splitTypes` computes from its `fullType` (and `params`). -/
theorem reachable_state_invariant {E : Type}
    (ParseMediaType : GoString → GoString × ParamMap × Option E) (raw : GoString)
    (m0 : mediaType) (calls : List Accessor)
    (h : (Parse ParseMediaType raw).1 = some m0) :
    ∃ vs st, run calls m0 = some (vs, st) ∧
      ((st.beenSplit = false ∧ st.mainType = [] ∧ st.subType = [] ∧ st.suffix = [] ∧
          st.trees = []) ∨
        (st.beenSplit = true ∧
          splitTypes (mediaType.new st.fullType st.params) = some st)) := by
  have hm0 := parse_result_is_new ParseMediaType raw m0 h
  have hf : m0.beenSplit = false := by rw [hm0]; rfl
  obtain ⟨vs, hvs⟩ := run_fresh hf calls
  refine ⟨vs, _, hvs, ?_⟩
  by_cases hany : calls.any Accessor.derives = true
  · rw [if_pos hany]
    refine Or.inr ⟨derived_beenSplit m0, ?_⟩
    rw [derived_fullType, derived_params, splitTypes_eq]
    congr 2
    rw [hm0]
    rfl
  · rw [if_neg hany]
    refine Or.inl ?_
    rw [hm0]
    exact ⟨rfl, rfl, rfl, rfl, rfl⟩

/-- C13 at `a/b.c+d`, parsed by a normalizer that returns its input, after the
calls `FullType()`, `Trees()`, `Suffix()`. -/
theorem reachable_state_invariant_witness :
    (Parse (fun raw => (raw, [], (none : Option Unit))) "a/b.c+d".toList).1 =
      some (mediaType.new "a/b.c+d".toList []) ∧
    ∃ vs st,
      run [Accessor.FullType, Accessor.Trees, Accessor.Suffix]
        (mediaType.new "a/b.c+d".toList []) = some (vs, st) ∧
      ((st.beenSplit = false ∧ st.mainType = [] ∧ st.subType = [] ∧ st.suffix = [] ∧
          st.trees = []) ∨
        (st.beenSplit = true ∧
          splitTypes (mediaType.new st.fullType st.params) = some st)) :=
  ⟨rfl,
    reachable_state_invariant (fun raw => (raw, [], (none : Option Unit))) "a/b.c+d".toList
      (mediaType.new "a/b.c+d".toList []) [Accessor.FullType, Accessor.Trees, Accessor.Suffix]
      rfl⟩

/-- C14: for every full type, `MainType()` has no `/`; `SubType()` and every
element of `Trees()` have none of `/`, `+`, `.`; `Suffix()` has no `/` and no
`+`, and it can have a `.`, as for `a/b+c.d`. -/
theorem derived_components_separator_free (fullType : GoString) (params : ParamMap) :
    (∃ main sub trees suffix m1 m2 m3 m4,
      MainType (mediaType.new fullType params) = some (main, m1) ∧
      SubType (mediaType.new fullType params) = some (sub, m2) ∧
      Trees (mediaType.new fullType params) = some (trees, m3) ∧
      Suffix (mediaType.new fullType params) = some (suffix, m4) ∧
      MainSubSplitCharacter ∉ main ∧
      (MainSubSplitCharacter ∉ sub ∧ SuffixCharacter ∉ sub ∧ TreeSeparatorCharacter ∉ sub) ∧
      (∀ t ∈ trees,
        MainSubSplitCharacter ∉ t ∧ SuffixCharacter ∉ t ∧ TreeSeparatorCharacter ∉ t) ∧
      MainSubSplitCharacter ∉ suffix ∧ SuffixCharacter ∉ suffix) ∧
    (Suffix (mediaType.new "a/b+c.d".toList [])).map Prod.fst = some "c.d".toList ∧
    TreeSeparatorCharacter ∈ "c.d".toList := by
  refine ⟨⟨_, _, _, _, _, _, _, _, MainType_new fullType params, SubType_new fullType params,
    Trees_new fullType params, Suffix_new fullType params, ?_⟩, by decide, by decide⟩
  by_cases h : MainSubSplitCharacter ∈ fullType
  · rw [derived_new_slash fullType params h]
    simp only []
    refine ⟨not_mem_textBefore _ _, ?_, ?_, ?_⟩
    · exact tree_piece_separator_free _ _ (getLastD_Split_mem _ _)
    · intro t ht
      exact tree_piece_separator_free _ _ (List.dropLast_subset _ ht)
    · exact suffix_separator_free _
  · rw [derived_new_no_slash fullType params h]
    simp only []
    refine ⟨h, ?_, ?_, ?_⟩ <;> simp

/-- C15: for `s` without `/` and `+`, every deriving accessor returns the same
for `m/s+` as for `m/s`; and for a main type `m` (a string without `/`)
`MainType()` is `m` and `Suffix()` is the empty string for both, so the
trailing `+` is in no derived field. -/
theorem empty_suffix_is_no_suffix (m s : GoString) (params : ParamMap)
    (hs : MainSubSplitCharacter ∉ s) (hs' : SuffixCharacter ∉ s) :
    (∀ a : Accessor, a.derives = true →
      ∃ v,
        (call a (mediaType.new (m ++ [MainSubSplitCharacter] ++ s ++ [SuffixCharacter])
          params)).map Prod.fst = some v ∧
        (call a (mediaType.new (m ++ [MainSubSplitCharacter] ++ s) params)).map Prod.fst =
          some v) ∧
    (MainSubSplitCharacter ∉ m →
      (MainType (mediaType.new (m ++ [MainSubSplitCharacter] ++ s ++ [SuffixCharacter])
        params)).map Prod.fst = some m ∧
      (MainType (mediaType.new (m ++ [MainSubSplitCharacter] ++ s) params)).map Prod.fst =
        some m ∧
      (Suffix (mediaType.new (m ++ [MainSubSplitCharacter] ++ s ++ [SuffixCharacter])
        params)).map Prod.fst = some [] ∧
      (Suffix (mediaType.new (m ++ [MainSubSplitCharacter] ++ s) params)).map Prod.fst =
        some []) := by
  have e1 : m ++ [MainSubSplitCharacter] ++ s ++ [SuffixCharacter]
      = m ++ MainSubSplitCharacter :: (s ++ SuffixCharacter :: []) := by
    simp
  have e2 : m ++ [MainSubSplitCharacter] ++ s = m ++ MainSubSplitCharacter :: s := by
    simp
  have hne : MainSubSplitCharacter ≠ SuffixCharacter := by decide
  have hx1 : MainSubSplitCharacter ∉ s ++ SuffixCharacter :: [] := by
    simp [hs, hne]
  have hsfx1 : textBefore SuffixCharacter (textAfter SuffixCharacter
      (s ++ SuffixCharacter :: [])) = [] := by
    rw [textAfter_append_sep hs', textBefore_nil]
  have hsfx2 : textBefore SuffixCharacter (textAfter SuffixCharacter s) = [] := by
    rw [textAfter_of_not_mem hs', textBefore_nil]
  rw [e1, e2]
  refine ⟨fun a ha => call_new_eq_of_sub_parts m _ _ params ?_ ?_ a ha, ?_⟩
  · rw [textBefore_of_not_mem hx1, textBefore_of_not_mem hs, textBefore_append_sep]
  · rw [textBefore_of_not_mem hx1, textBefore_of_not_mem hs, hsfx1, hsfx2]
  · intro hm
    obtain ⟨a1, a2⟩ := derived_new_append m _ params hm hx1
    obtain ⟨b1, b2⟩ := derived_new_append m _ params hm hs
    rw [MainType_new, MainType_new, Suffix_new, Suffix_new, a1, a2, b1, b2, hsfx1, hsfx2]
    simp

/-- C15 at `application/json+`. -/
theorem empty_suffix_is_no_suffix_witness :
    MainSubSplitCharacter ∉ "json".toList ∧ SuffixCharacter ∉ "json".toList ∧
    MainSubSplitCharacter ∉ "application".toList ∧
    (Suffix (mediaType.new
      ("application".toList ++ [MainSubSplitCharacter] ++ "json".toList ++ [SuffixCharacter])
      [])).map Prod.fst = some [] ∧
    (Suffix (mediaType.new
      ("application".toList ++ [MainSubSplitCharacter] ++ "json".toList) [])).map Prod.fst =
      some [] :=
  ⟨by decide, by decide, by decide,
   ((empty_suffix_is_no_suffix "application".toList "json".toList []
      (by decide) (by decide)).2 (by decide)).2.2.1,
   ((empty_suffix_is_no_suffix "application".toList "json".toList []
      (by decide) (by decide)).2 (by decide)).2.2.2⟩

end mediatype
